import Mathlib

/-!
Verification development for the blueprint graph core: the schema
normalizer (`ensureDefaultPins`), the edge resolver inside
`generateBlueprint`, and the layered layout engine
(`getLayoutedElements`).  Every definition is a shallow embedding of the
corresponding TypeScript function; strings are modelled as Lean
`String`, JS arrays as `List`, JS dictionaries as association lists,
absent/optional string fields as `Option String`, JS numbers used by the
layout arithmetic as `ℚ`.  String helpers are re-implemented over the
underlying character lists so that all definitions reduce in the kernel.
-/

/-- ASCII lower-casing of a character, as `toLowerCase` acts on the
ASCII range (the only range the resolver's keyword tokens live in). -/
def lowerChar (c : Char) : Char :=
  if 'A' ≤ c ∧ c ≤ 'Z' then Char.ofNat (c.toNat + 32) else c

/-- Models `String.prototype.toLowerCase` (ASCII range). -/
def lowerStr (s : String) : String := ⟨s.data.map lowerChar⟩

/-- Models `String.prototype.startsWith`. -/
def strStartsWith (s pre : String) : Bool := pre.data.isPrefixOf s.data

/-- Models `String.prototype.includes` (substring containment). -/
def strContainsSub (hay needle : String) : Bool :=
  hay.data.tails.any (fun t => needle.data.isPrefixOf t)

/-- JS truthiness of an optional string: `undefined` and `""` are falsy. -/
def truthyOpt : Option String → Bool
  | none => false
  | some s => !(s == "")

/-- A pin as the normalizer reads and writes it: only `id`, `name` and
`type` are ever consulted by the core (`isOutput`, `value`,
`defaultValue` are render-side and never read here). -/
structure Pin where
  id : String
  name : String
  type : String
deriving DecidableEq, Repr

/-- A raw node shape arriving from the generator, after the two
defaulting statements at the top of `ensureDefaultPins`
(`node.label || ""`, missing `inputs`/`outputs` become `[]`): `label`
holds `""` when the field was absent or empty, `nodeType` holds `""`
when absent. -/
structure RawNode where
  id : String
  label : String
  nodeType : String
  inputs : List Pin
  outputs : List Pin
deriving DecidableEq, Repr

/-- `ps.some(p => p.type === 'exec')`. -/
def hasExecPin (ps : List Pin) : Bool := ps.any (fun p => p.type == "exec")

/-- The pure-node heuristic `isLikelyPure` of `ensureDefaultPins`. -/
def isLikelyPure (n : RawNode) : Bool :=
  n.nodeType == "variable_get" ||
  strStartsWith n.label "Get " ||
  strStartsWith n.label "Make " ||
  strStartsWith n.label "Break " ||
  strStartsWith n.label "Is " ||
  strStartsWith n.label "Find " ||
  strStartsWith n.label "Select " ||
  strContainsSub n.label "Math" ||
  strContainsSub n.label "+" ||
  strContainsSub n.label "-"

/-- Section 1 of `ensureDefaultPins`: BRANCH / IF. -/
def branchFix (n : RawNode) : RawNode :=
  let inputs :=
    if hasExecPin n.inputs then n.inputs
    else ⟨n.id ++ "_Exec", "Exec", "exec"⟩ :: n.inputs
  let inputs :=
    if inputs.any (fun p => p.type == "boolean") then inputs
    else inputs ++ [⟨n.id ++ "_Condition", "Condition", "boolean"⟩]
  let outputs :=
    if n.outputs.any (fun p => p.name == "True") then n.outputs
    else n.outputs ++ [⟨n.id ++ "_True", "True", "exec"⟩]
  let outputs :=
    if outputs.any (fun p => p.name == "False") then outputs
    else outputs ++ [⟨n.id ++ "_False", "False", "exec"⟩]
  { n with inputs := inputs, outputs := outputs }

/-- Section 2 of `ensureDefaultPins`: EVENTS. -/
def eventFix (n : RawNode) : RawNode :=
  { n with outputs :=
      if hasExecPin n.outputs then n.outputs
      else ⟨n.id ++ "_Output", "Output", "exec"⟩ :: n.outputs }

/-- Section 3 of `ensureDefaultPins`: SEQUENCE. -/
def seqFix (n : RawNode) : RawNode :=
  { n with
    inputs :=
      if hasExecPin n.inputs then n.inputs
      else ⟨n.id ++ "_Exec", "Exec", "exec"⟩ :: n.inputs,
    outputs :=
      if n.outputs.length < 2 then
        n.outputs ++ [⟨n.id ++ "_Then0", "Then 0", "exec"⟩,
                      ⟨n.id ++ "_Then1", "Then 1", "exec"⟩]
      else n.outputs }

/-- Section 4 of `ensureDefaultPins`: SET VARIABLE. -/
def varSetFix (n : RawNode) : RawNode :=
  { n with
    inputs :=
      if hasExecPin n.inputs then n.inputs
      else ⟨n.id ++ "_Exec", "Exec", "exec"⟩ :: n.inputs,
    outputs :=
      if hasExecPin n.outputs then n.outputs
      else ⟨n.id ++ "_Output", "Output", "exec"⟩ :: n.outputs }

/-- Section 5 of `ensureDefaultPins`: GET VARIABLE. -/
def varGetFix (n : RawNode) : RawNode :=
  let p := if n.inputs.length > 0 && n.outputs.length == 0
           then (([] : List Pin), n.inputs) else (n.inputs, n.outputs)
  let outputs :=
    if p.2.length == 0 then p.2 ++ [⟨n.id ++ "_Value", "Value", "boolean"⟩]
    else p.2
  { n with inputs := p.1, outputs := outputs }

/-- Section 6 of `ensureDefaultPins`: FOR LOOP. -/
def forLoopFix (n : RawNode) : RawNode :=
  let inputs :=
    if hasExecPin n.inputs then n.inputs
    else ⟨n.id ++ "_Exec", "Exec", "exec"⟩ :: n.inputs
  let outputs :=
    if n.outputs.any (fun p => p.name == "Loop Body") then n.outputs
    else n.outputs ++ [⟨n.id ++ "_LoopBody", "Loop Body", "exec"⟩]
  let outputs :=
    if outputs.any (fun p => p.name == "Completed") then outputs
    else outputs ++ [⟨n.id ++ "_Completed", "Completed", "exec"⟩]
  { n with inputs := inputs, outputs := outputs }

/-- Section 7 of `ensureDefaultPins`: GENERIC EXECUTION NODES. -/
def genericFix (n : RawNode) : RawNode :=
  if !isLikelyPure n && n.nodeType != "comment" && n.nodeType != "variable_get" then
    { n with
      inputs :=
        if hasExecPin n.inputs then n.inputs
        else ⟨n.id ++ "_Exec", "Exec", "exec"⟩ :: n.inputs,
      outputs :=
        if hasExecPin n.outputs then n.outputs
        else ⟨n.id ++ "_Output", "Output", "exec"⟩ :: n.outputs }
  else n

/-- Guard of section 1: `label === "Branch" || label === "If"`. -/
def isBranchCond (n : RawNode) : Bool := n.label == "Branch" || n.label == "If"

/-- Guard of section 2: `type === 'event'` or an event-like label. -/
def isEventCond (n : RawNode) : Bool :=
  n.nodeType == "event" || strStartsWith n.label "Event" ||
  strStartsWith n.label "On " || strStartsWith n.label "Input"

/-- Guard of section 3: `label === "Sequence"`. -/
def isSeqCond (n : RawNode) : Bool := n.label == "Sequence"

/-- Guard of section 4: `type === 'variable_set' || label.startsWith('Set ')`. -/
def isVarSetCond (n : RawNode) : Bool :=
  n.nodeType == "variable_set" || strStartsWith n.label "Set "

/-- Guard of section 5: `type === 'variable_get'`. -/
def isVarGetCond (n : RawNode) : Bool := n.nodeType == "variable_get"

/-- Guard of section 6: `label === "For Loop" || label === "ForEach Loop"`. -/
def isForCond (n : RawNode) : Bool :=
  n.label == "For Loop" || n.label == "ForEach Loop"

/-- The schema normalizer `ensureDefaultPins` of the generation service,
with its category dispatch in source order. -/
def ensureDefaultPins (n : RawNode) : RawNode :=
  if isBranchCond n then branchFix n
  else if isEventCond n then eventFix n
  else if isSeqCond n then seqFix n
  else if isVarSetCond n then varSetFix n
  else if isVarGetCond n then varGetFix n
  else if isForCond n then forLoopFix n
  else genericFix n

/-- Whether `ensureDefaultPins` dispatches the node to its GET VARIABLE
section (the classification the spec calls VariableGet). -/
def classifiedVarGet (n : RawNode) : Bool :=
  !isBranchCond n && !isEventCond n && !isSeqCond n && !isVarSetCond n &&
  isVarGetCond n

/-- A transformed node as `generateBlueprint` builds it: the enriched
node's id with its normalized pin arrays (the rendering fields
`position`, `type`, `comment` are never read by the resolver or the
layout model). -/
structure TNode where
  id : String
  inputs : List Pin
  outputs : List Pin
deriving DecidableEq, Repr

/-- The `transformedNodes` map of `generateBlueprint`. -/
def transformNodes (rawNodes : List RawNode) : List TNode :=
  rawNodes.map (fun n =>
    let e := ensureDefaultPins n
    ⟨e.id, e.inputs, e.outputs⟩)

/-- A raw edge record from the generator; absent string fields are `none`. -/
structure RawEdge where
  id : Option String
  source : String
  target : String
  sourceHandle : Option String
  targetHandle : Option String
deriving DecidableEq, Repr

/-- A resolved edge as returned inside `validEdges`. -/
structure REdge where
  id : String
  source : String
  target : String
  sourceHandle : Option String
  targetHandle : Option String
deriving DecidableEq, Repr

/-- Resolution of one raw edge at its position `index` in the raw edge
sequence: the body of the `validEdges` map of `generateBlueprint`,
returning `none` where the source returns `null`. -/
def resolveEdge (nodes : List TNode) (index : Nat) (edge : RawEdge) : Option REdge :=
  match nodes.find? (fun n => n.id == edge.source),
        nodes.find? (fun n => n.id == edge.target) with
  | some sourceNode, some targetNode =>
    let sourceHandleStr :=
      if truthyOpt edge.sourceHandle then lowerStr (edge.sourceHandle.getD "") else ""
    let sourcePinExists :=
      truthyOpt edge.sourceHandle &&
        sourceNode.outputs.any (fun p => some p.id == edge.sourceHandle)
    let finalSourceHandle :=
      if sourcePinExists then edge.sourceHandle
      else
        let isExecLike :=
          !truthyOpt edge.sourceHandle ||
          strContainsSub sourceHandleStr "exec" ||
          strContainsSub sourceHandleStr "then" ||
          strContainsSub sourceHandleStr "true" ||
          strContainsSub sourceHandleStr "out"
        if isExecLike then
          match sourceNode.outputs.find? (fun p => p.type == "exec") with
          | some execPin => some execPin.id
          | none =>
            match sourceNode.outputs with
            | p :: _ => some p.id
            | [] => edge.sourceHandle
        else
          match sourceNode.outputs with
          | p :: _ => some p.id
          | [] => edge.sourceHandle
    let targetHandleStr :=
      if truthyOpt edge.targetHandle then lowerStr (edge.targetHandle.getD "") else ""
    let targetPinExists :=
      truthyOpt edge.targetHandle &&
        targetNode.inputs.any (fun p => some p.id == edge.targetHandle)
    let finalTargetHandle :=
      if targetPinExists then edge.targetHandle
      else
        let isExecLike :=
          !truthyOpt edge.targetHandle || strContainsSub targetHandleStr "exec"
        if isExecLike then
          match targetNode.inputs.find? (fun p => p.type == "exec") with
          | some execPin => some execPin.id
          | none =>
            match targetNode.inputs with
            | p :: _ => some p.id
            | [] => edge.targetHandle
        else
          match targetNode.inputs with
          | p :: _ => some p.id
          | [] => edge.targetHandle
    let edgeId :=
      if truthyOpt edge.id then edge.id.getD ""
      else "e_" ++ edge.source ++ "_" ++ edge.target ++ "_" ++ toString index
    if !truthyOpt finalSourceHandle || !truthyOpt finalTargetHandle then none
    else some { id := edgeId, source := edge.source, target := edge.target,
                sourceHandle := finalSourceHandle, targetHandle := finalTargetHandle }
  | _, _ => none

/-- The `validEdges` computation of `generateBlueprint`: map each raw
edge with its sequence index through resolution, then drop the `null`s. -/
def validEdges (nodes : List TNode) (rawEdges : List RawEdge) : List REdge :=
  (rawEdges.enum.map (fun p => resolveEdge nodes p.1 p.2)).filterMap id

example :
    ensureDefaultPins ⟨"B1", "Branch", "flow_control", [], []⟩ =
      ⟨"B1", "Branch", "flow_control",
       [⟨"B1_Exec", "Exec", "exec"⟩, ⟨"B1_Condition", "Condition", "boolean"⟩],
       [⟨"B1_True", "True", "exec"⟩, ⟨"B1_False", "False", "exec"⟩]⟩ := by decide

/-- A node as the layout engine reads it: its id and the `nodeType`
stored in its data (the only data field the layout consults). -/
structure LNode where
  id : String
  nodeType : String
deriving DecidableEq, Repr

/-- An edge as the layout engine reads it. -/
structure LEdge where
  source : String
  target : String
deriving DecidableEq, Repr

/-- The forward adjacency map of `getLayoutedElements`: entries exist
exactly for ids of given nodes; targets are pushed in edge order, with
no check that the target itself is a node. -/
def adjOf (nodes : List LNode) (edges : List LEdge) (s : String) : List String :=
  if nodes.any (fun n => n.id == s) then
    (edges.filter (fun e => e.source == s)).map (fun e => e.target)
  else []

/-- The reverse adjacency map of `getLayoutedElements`. -/
def invAdjOf (nodes : List LNode) (edges : List LEdge) (t : String) : List String :=
  if nodes.any (fun n => n.id == t) then
    (edges.filter (fun e => e.target == t)).map (fun e => e.source)
  else []

/-- Setting one key of the `ranks` dictionary. -/
def updRank : List (String × Nat) → String → Nat → List (String × Nat)
  | [], k, v => [(k, v)]
  | (k', v') :: rest, k, v =>
    if k' == k then (k, v) :: rest else (k', v') :: updRank rest k v

/-- The body statement `if (ranks[id] === undefined || rank > ranks[id])
ranks[id] = rank` of the relaxation loop. -/
def rankStepUpdate (r : List (String × Nat)) (id : String) (rk : Nat) :
    List (String × Nat) :=
  match List.lookup id r with
  | none => updRank r id rk
  | some cur => if cur < rk then updRank r id rk else r

/-- The neighbor enqueueing of one relaxation step: every outgoing
neighbor whose best-known rank would grow is pushed at `rk + 1`. -/
def rankPushes (adj : String → List String) (r : List (String × Nat))
    (id : String) (rk : Nat) : List (String × Nat) :=
  ((adj id).filter (fun t =>
      match List.lookup t r with
      | none => true
      | some cur => decide (cur < rk + 1))).map (fun t => (t, rk + 1))

/-- The FIFO relaxation loop of `getLayoutedElements` step 2, made
total by a fuel parameter: `none` means the fuel ran out with the queue
still non-empty (the source loop would still be running). -/
def rankLoop (adj : String → List String) :
    Nat → List (String × Nat) → List (String × Nat) → Option (List (String × Nat))
  | _, [], r => some r
  | 0, _ :: _, _ => none
  | fuel + 1, (id, rk) :: rest, r =>
    let r' := rankStepUpdate r id rk
    rankLoop adj fuel (rest ++ rankPushes adj r' id rk) r'

/-- The initial queue: all nodes without incoming edges at rank 0, else
(cyclic graph with no clear source) the first node at rank 0. -/
def initQueue (nodes : List LNode) (edges : List LEdge) : List (String × Nat) :=
  let sources := nodes.filter (fun n => (invAdjOf nodes edges n.id).length == 0)
  let q := sources.map (fun n => (n.id, (0 : Nat)))
  if q.isEmpty && !nodes.isEmpty then
    match nodes with
    | n :: _ => [(n.id, 0)]
    | [] => []
  else q

/-- Rank assignment: run the relaxation loop from the initial queue with
an empty rank dictionary. -/
def runRanks (nodes : List LNode) (edges : List LEdge) (fuel : Nat) :
    Option (List (String × Nat)) :=
  rankLoop (adjOf nodes edges) fuel (initQueue nodes edges) []

/-- `ranks[id] !== undefined ? ranks[id] : 0` — the rank the grouping
step uses for a node. -/
def finalRank (r : List (String × Nat)) (id : String) : Nat :=
  (List.lookup id r).getD 0

/-- JS dictionary lookup on an insertion-ordered association list:
later insertions override earlier ones. -/
def dictGet {α : Type} : List (String × α) → String → Option α
  | [], _ => none
  | p :: rest, k =>
    match dictGet rest k with
    | some v => some v
    | none => if p.1 == k then some p.2 else none

/-- `maxRank` as accumulated while grouping nodes by rank. -/
def maxRankOf (nodes : List LNode) (r : List (String × Nat)) : Nat :=
  nodes.foldl (fun m n => max m (finalRank r n.id)) 0

/-- `rankMap[r]`: the ids of the nodes grouped at rank `r`, in node
declaration order. -/
def rankGroup (nodes : List LNode) (r : List (String × Nat)) (rk : Nat) :
    List String :=
  (nodes.filter (fun n => finalRank r n.id == rk)).map (fun n => n.id)

/-- `nodeMap.get` — the node map is built by successive `set` calls, so
the last node with a given id wins. -/
def nodeMapGet (nodes : List LNode) (id : String) : Option LNode :=
  nodes.foldl (fun acc n => if n.id == id then some n else acc) none

/-- `Number.MAX_SAFE_INTEGER`, the sentinel barycenter for nodes with no
positioned parent. -/
def maxSafeInteger : ℚ := 9007199254740991

/-- One entry of `nodesWithWeight`. -/
structure WItem where
  id : String
  avgY : ℚ
  isEvent : Bool
deriving DecidableEq, Repr

/-- Barycenter computation for the ids of one column, given the
positions accumulated from earlier columns. -/
def itemsFor (nodes : List LNode) (edges : List LEdge)
    (pos : List (String × ℚ × ℚ)) (ids : List String) : List WItem :=
  ids.map (fun id =>
    let parents := invAdjOf nodes edges id
    let parentYs := parents.filterMap (fun pid => (dictGet pos pid).map (fun p => p.2))
    let avgY :=
      if parentYs.length > 0 then (parentYs.foldl (· + ·) 0) / (parentYs.length : ℚ)
      else maxSafeInteger
    let isEvent :=
      match nodeMapGet nodes id with
      | some n => n.nodeType == "event"
      | none => false
    ⟨id, avgY, isEvent⟩)

/-- The comparator of the within-column sort: events first, then
ascending barycenter. -/
def sortLe (a b : WItem) : Bool :=
  if a.isEvent != b.isEvent then a.isEvent else decide (a.avgY ≤ b.avgY)

/-- Position assignment with collision stacking for one ordered column
at abscissa `x`: each node's y is its barycenter (or the cursor for the
sentinel), clamped to the running cursor; the cursor then advances by
the node height 150 plus the gap 50. -/
def placeRank (x : ℚ) : List WItem → ℚ → List (String × ℚ × ℚ)
  | [], _ => []
  | item :: rest, cur =>
    let ideal0 := if item.avgY != maxSafeInteger then item.avgY else cur
    let ideal := if ideal0 < cur then cur else ideal0
    (item.id, (x, ideal)) :: placeRank x rest (ideal + 150 + 50)

/-- Steps 3–5 of `getLayoutedElements`: columns 0..maxRank processed
left to right, each column barycenter-sorted and stacked; positions are
entered into the dictionary column by column.  Column spacing is 450. -/
def layoutPositions (nodes : List LNode) (edges : List LEdge)
    (r : List (String × Nat)) : List (String × ℚ × ℚ) :=
  (List.range (maxRankOf nodes r + 1)).foldl
    (fun pos (rk : Nat) =>
      pos ++ placeRank ((rk : ℚ) * 450)
        ((itemsFor nodes edges pos (rankGroup nodes r rk)).mergeSort sortLe) 0)
    []

/-- The whole layout engine with fuel for the relaxation loop: `none`
when the relaxation loop does not finish within the fuel.  Every node
receives the dictionary position, or (0,0) if absent. -/
def getLayoutedElements (nodes : List LNode) (edges : List LEdge) (fuel : Nat) :
    Option (List (LNode × ℚ × ℚ)) :=
  (runRanks nodes edges fuel).map (fun r =>
    let pos := layoutPositions nodes edges r
    nodes.map (fun n => (n, (dictGet pos n.id).getD (0, 0))))

/-- The two nodes of the cyclic scenario A→B→A. -/
def cycNodes : List LNode := [⟨"A", "event"⟩, ⟨"B", "function"⟩]

/-- The two edges of the cyclic scenario A→B→A. -/
def cycEdges : List LEdge := [⟨"A", "B"⟩, ⟨"B", "A"⟩]

/-- The node the relaxation loop visits at step `k` of the cyclic
scenario: the queue alternates between A (even steps) and B (odd
steps). -/
def cycId (k : Nat) : String := if k % 2 == 0 then "A" else "B"

/-- `res` is `orig` with pins only prepended and appended around it
(relative order of the pre-existing pins untouched). -/
def pinsSandwiched (orig res : List Pin) : Prop :=
  ∃ pre post, res = pre ++ orig ++ post

/-- Invariant of the relaxation loop: for every adjacency arc from `s`
to `t`, once `s` has a recorded rank, either `t` already has a rank at
least one greater, or a queue entry will still deliver that rank to
`t`, or a queue entry for `s` itself (at least as high as its recorded
rank) will re-examine the arc. -/
def rankInv (adj : String → List String) (q r : List (String × Nat)) : Prop :=
  ∀ s t, t ∈ adj s → ∀ rs, List.lookup s r = some rs →
    (∃ rt, List.lookup t r = some rt ∧ rs + 1 ≤ rt) ∨
    (∃ p ∈ q, p.1 = t ∧ rs + 1 ≤ p.2) ∨
    (∃ p ∈ q, p.1 = s ∧ rs ≤ p.2)

/-- Prepending the injected Exec pin always yields a pin list with an
Exec pin. -/
theorem hasExecPin_cons_exec (i n : String) (l : List Pin) :
    hasExecPin (⟨i, n, "exec"⟩ :: l) = true := by
  simp [hasExecPin]

/-- An `any` surviving an arbitrary conditional append. -/
theorem any_ite_keep {c : Prop} [Decidable c] {q : Pin → Bool} {l : List Pin}
    {x : Pin} (h : l.any q = true) : (if c then l else l ++ [x]).any q = true := by
  split_ifs <;> simp_all

/-- The repair pattern "append `x` unless a pin satisfying `q` exists"
always results in a list holding a pin satisfying `q`. -/
theorem any_ite_append_self {q : Pin → Bool} (l : List Pin) {x : Pin}
    (hx : q x = true) : (if l.any q = true then l else l ++ [x]).any q = true := by
  split_ifs with h
  · exact h
  · simp [hx]

/-- The repair pattern "prepend `x` unless a pin satisfying `q` exists"
always results in a list holding a pin satisfying `q`. -/
theorem any_ite_cons_self {q : Pin → Bool} (l : List Pin) {x : Pin}
    (hx : q x = true) : (if l.any q = true then l else x :: l).any q = true := by
  split_ifs with h
  · exact h
  · simp [hx]

/-- Claim C2 (amended): a node dispatched to the Sequence rule (label
exactly "Sequence", kind not event — the event rule takes precedence)
ends with at least one Exec input; when the raw node has fewer than two
output pins, the exec outputs "Then 0" and "Then 1" are appended, and
when it already has two or more output pins its outputs stay unchanged
(possibly containing no Exec output at all). -/
theorem sequence_pins_C2 (n : RawNode) (hl : n.label = "Sequence")
    (ht : n.nodeType ≠ "event") :
    hasExecPin (ensureDefaultPins n).inputs = true ∧
    (n.outputs.length < 2 →
      (ensureDefaultPins n).outputs =
        n.outputs ++ [⟨n.id ++ "_Then0", "Then 0", "exec"⟩,
                      ⟨n.id ++ "_Then1", "Then 1", "exec"⟩]) ∧
    (2 ≤ n.outputs.length → (ensureDefaultPins n).outputs = n.outputs) := by
  have hd : ensureDefaultPins n = seqFix n := by
    have h1 : ("Sequence" == "Branch") = false := by decide
    have h2 : ("Sequence" == "If") = false := by decide
    have h3 : strStartsWith "Sequence" "Event" = false := by decide
    have h4 : strStartsWith "Sequence" "On " = false := by decide
    have h5 : strStartsWith "Sequence" "Input" = false := by decide
    unfold ensureDefaultPins isBranchCond isEventCond isSeqCond
    rw [hl, beq_eq_false_iff_ne.mpr ht]
    simp [h1, h2, h3, h4, h5]
  rw [hd]
  unfold seqFix
  refine ⟨?_, ?_, ?_⟩
  · by_cases h : hasExecPin n.inputs = true
    · simp [h]
    · simp only [Bool.not_eq_true] at h
      simp [h, hasExecPin_cons_exec]
  · intro h
    simp [h]
  · intro h
    simp [Nat.not_lt.mpr h]

/-- Claim C2 counterexample: a raw Sequence node already carrying two
non-Exec output pins keeps them unchanged, so the normalized node has
no Exec output and no pin named "Then 0", contrary to the claim. -/
theorem sequence_pins_C2_cex :
    hasExecPin (ensureDefaultPins ⟨"Q", "Sequence", "flow_control", [],
      [⟨"Q_A", "A", "string"⟩, ⟨"Q_B", "B", "string"⟩]⟩).outputs = false ∧
    ((ensureDefaultPins ⟨"Q", "Sequence", "flow_control", [],
      [⟨"Q_A", "A", "string"⟩, ⟨"Q_B", "B", "string"⟩]⟩).outputs.any
        (fun p => p.name == "Then 0")) = false := by decide

/-- Claim C2 witness: the empty raw Sequence node gains an Exec input
and the two "Then" exec outputs. -/
theorem sequence_pins_C2_witness :
    hasExecPin (ensureDefaultPins ⟨"S1", "Sequence", "", [], []⟩).inputs = true ∧
    (ensureDefaultPins ⟨"S1", "Sequence", "", [], []⟩).outputs =
      [] ++ [⟨"S1_Then0", "Then 0", "exec"⟩, ⟨"S1_Then1", "Then 1", "exec"⟩] :=
  ⟨(sequence_pins_C2 ⟨"S1", "Sequence", "", [], []⟩ rfl (by decide)).1,
   (sequence_pins_C2 ⟨"S1", "Sequence", "", [], []⟩ rfl (by decide)).2.1 (by decide)⟩

/-- Claim C4 (amended): every raw node with label exactly "Branch" or
"If" normalizes to a node with at least one Exec input, at least one
Boolean input, and output pins named "True" and "False" (each appended
only when no pin of that name pre-exists); the empty raw Branch
normalizes exactly to inputs [Exec, Condition(Boolean)] and outputs
[True(Exec), False(Exec)]. -/
theorem branch_pins_C4 (n : RawNode) (hl : n.label = "Branch" ∨ n.label = "If") :
    hasExecPin (ensureDefaultPins n).inputs = true ∧
    (ensureDefaultPins n).inputs.any (fun p => p.type == "boolean") = true ∧
    (ensureDefaultPins n).outputs.any (fun p => p.name == "True") = true ∧
    (ensureDefaultPins n).outputs.any (fun p => p.name == "False") = true ∧
    (n.inputs = [] → n.outputs = [] →
      (ensureDefaultPins n).inputs =
        [⟨n.id ++ "_Exec", "Exec", "exec"⟩, ⟨n.id ++ "_Condition", "Condition", "boolean"⟩] ∧
      (ensureDefaultPins n).outputs =
        [⟨n.id ++ "_True", "True", "exec"⟩, ⟨n.id ++ "_False", "False", "exec"⟩]) := by
  have hd : ensureDefaultPins n = branchFix n := by
    unfold ensureDefaultPins isBranchCond
    rcases hl with h | h <;> rw [h] <;> simp
  rw [hd]
  unfold branchFix hasExecPin
  refine ⟨any_ite_keep (any_ite_cons_self n.inputs rfl),
          any_ite_append_self _ rfl,
          any_ite_keep (any_ite_append_self n.outputs rfl),
          any_ite_append_self _ rfl,
          ?_⟩
  intro hi ho
  simp [hi, ho]

/-- Claim C4 counterexample: a raw Branch node already carrying two
Exec inputs and one extra Exec output ends with two Exec inputs and
three Exec outputs — not exactly one and exactly two. -/
theorem branch_pins_C4_cex :
    ((ensureDefaultPins ⟨"B1", "Branch", "flow_control",
        [⟨"i1", "E1", "exec"⟩, ⟨"i2", "E2", "exec"⟩],
        [⟨"o1", "Go", "exec"⟩]⟩).inputs.filter
          (fun p => p.type == "exec")).length = 2 ∧
    ((ensureDefaultPins ⟨"B1", "Branch", "flow_control",
        [⟨"i1", "E1", "exec"⟩, ⟨"i2", "E2", "exec"⟩],
        [⟨"o1", "Go", "exec"⟩]⟩).outputs.filter
          (fun p => p.type == "exec")).length = 3 := by decide

/-- Claim C4 witness: the empty raw Branch node gets exactly the
advertised pin lists. -/
theorem branch_pins_C4_witness :
    (ensureDefaultPins ⟨"B1", "Branch", "flow_control", [], []⟩).inputs =
      [⟨"B1_Exec", "Exec", "exec"⟩, ⟨"B1_Condition", "Condition", "boolean"⟩] ∧
    (ensureDefaultPins ⟨"B1", "Branch", "flow_control", [], []⟩).outputs =
      [⟨"B1_True", "True", "exec"⟩, ⟨"B1_False", "False", "exec"⟩] :=
  (branch_pins_C4 ⟨"B1", "Branch", "flow_control", [], []⟩ (Or.inl rfl)).2.2.2.2 rfl rfl

/-- Claim C6 (amended): the normalizer has no kind test for
`input_event`; a node of kind InputEvent is dispatched to the event
rule only through its label.  When its label starts with "Event",
"On " or "Input", the event repair applies: the inputs are untouched
and one Exec output is prepended exactly when no Exec output exists. -/
theorem input_event_C6 (n : RawNode) (_ht : n.nodeType = "input_event")
    (hl : strStartsWith n.label "Event" = true ∨ strStartsWith n.label "On " = true ∨
          strStartsWith n.label "Input" = true) :
    (ensureDefaultPins n).inputs = n.inputs ∧
    hasExecPin (ensureDefaultPins n).outputs = true ∧
    (hasExecPin n.outputs = false →
      (ensureDefaultPins n).outputs = ⟨n.id ++ "_Output", "Output", "exec"⟩ :: n.outputs) ∧
    (hasExecPin n.outputs = true → (ensureDefaultPins n).outputs = n.outputs) := by
  have hbr : (n.label == "Branch") = false := by
    cases hb : n.label == "Branch"
    · rfl
    · exfalso
      have hbl : n.label = "Branch" := by
        exact eq_of_beq hb
      rw [hbl] at hl
      rcases hl with h | h | h <;> revert h <;> decide
  have hif : (n.label == "If") = false := by
    cases hb : n.label == "If"
    · rfl
    · exfalso
      have hbl : n.label = "If" := by
        exact eq_of_beq hb
      rw [hbl] at hl
      rcases hl with h | h | h <;> revert h <;> decide
  have hd : ensureDefaultPins n = eventFix n := by
    unfold ensureDefaultPins isBranchCond isEventCond
    rw [hbr, hif]
    rcases hl with h | h | h <;> simp [h]
  rw [hd]
  unfold eventFix
  refine ⟨rfl, ?_, ?_, ?_⟩
  · by_cases h : hasExecPin n.outputs = true
    · simp [h]
    · simp only [Bool.not_eq_true] at h
      simp [h, hasExecPin_cons_exec]
  · intro h
    simp [h]
  · intro h
    simp [h]

/-- Claim C6 counterexample: the raw node with kind `input_event`,
label "Jump" and no pins falls through to the generic execution rule
and receives an injected Exec input pin, contrary to the claim. -/
theorem input_event_C6_cex :
    hasExecPin (ensureDefaultPins ⟨"N", "Jump", "input_event", [], []⟩).inputs = true := by
  decide

/-- Claim C6 witness: a kind-InputEvent node whose label starts with
"Input" gets one prepended Exec output and untouched inputs. -/
theorem input_event_C6_witness :
    (ensureDefaultPins ⟨"N", "InputAction Jump", "input_event", [], []⟩).inputs = [] ∧
    (ensureDefaultPins ⟨"N", "InputAction Jump", "input_event", [], []⟩).outputs =
      [⟨"N_Output", "Output", "exec"⟩] :=
  ⟨(input_event_C6 ⟨"N", "InputAction Jump", "input_event", [], []⟩ rfl
      (Or.inr (Or.inr (by decide)))).1,
   (input_event_C6 ⟨"N", "InputAction Jump", "input_event", [], []⟩ rfl
      (Or.inr (Or.inr (by decide)))).2.2.1 (by decide)⟩

/-- Claim C5 (amended): when the source node exists but has no output
pins, the edge is dropped exactly when its declared `sourceHandle` is
absent or empty (JS-falsy); mirror statement for a target node with no
input pins.  (A non-empty declared handle on a pin-less node survives
the fallback chain unchanged and the edge is kept, dangling.) -/
theorem edge_drop_C5 (nodes : List TNode) (index : Nat) (e : RawEdge)
    (sn tn : TNode)
    (hs : nodes.find? (fun n => n.id == e.source) = some sn)
    (ht : nodes.find? (fun n => n.id == e.target) = some tn)
    (hcase : (sn.outputs = [] ∧ truthyOpt e.sourceHandle = false) ∨
             (tn.inputs = [] ∧ truthyOpt e.targetHandle = false)) :
    resolveEdge nodes index e = none := by
  rcases hcase with ⟨ho, hf⟩ | ⟨hi, hf⟩
  · simp [resolveEdge, hs, ht, ho, hf]
  · simp [resolveEdge, hs, ht, hi, hf]

/-- Claim C5 counterexample: the source node "S" normalizes to a node
with no output pins (pure getter), yet the edge declaring the non-empty
handle "data" is NOT dropped: it survives with the dangling handle. -/
theorem edge_drop_C5_cex :
    ((transformNodes [⟨"S", "Get Health", "function", [], []⟩,
        ⟨"T", "Do Thing", "function", [], []⟩]).find?
          (fun n => n.id == "S")).map (fun n => n.outputs) = some [] ∧
    resolveEdge (transformNodes [⟨"S", "Get Health", "function", [], []⟩,
        ⟨"T", "Do Thing", "function", [], []⟩]) 0
      ⟨none, "S", "T", some "data", none⟩ ≠ none := by decide

/-- Claim C5 witness: same nodes, but with no declared source handle the
edge is dropped. -/
theorem edge_drop_C5_witness :
    resolveEdge (transformNodes [⟨"S", "Get Health", "function", [], []⟩,
        ⟨"T", "Do Thing", "function", [], []⟩]) 0
      ⟨none, "S", "T", none, none⟩ = none :=
  edge_drop_C5 _ 0 ⟨none, "S", "T", none, none⟩ ⟨"S", [], []⟩
    ⟨"T", [⟨"T_Exec", "Exec", "exec"⟩], [⟨"T_Output", "Output", "exec"⟩]⟩
    (by decide) (by decide) (Or.inl ⟨rfl, rfl⟩)

/-- Claim C7 (amended): a surviving edge that declared no (or an empty)
id receives the id "e_" followed by source, target and the sequence
index, each separated by an underscore — note the "e_" marker the claim
omits; an edge with a non-empty declared id keeps it. -/
theorem edge_id_C7 (nodes : List TNode) (index : Nat) (e : RawEdge) (r : REdge)
    (h : resolveEdge nodes index e = some r) :
    (truthyOpt e.id = false →
      r.id = "e_" ++ e.source ++ "_" ++ e.target ++ "_" ++ toString index) ∧
    (truthyOpt e.id = true → r.id = e.id.getD "") := by
  unfold resolveEdge at h
  cases hfs : nodes.find? (fun n => n.id == e.source) <;> rw [hfs] at h
  · cases h
  cases hft : nodes.find? (fun n => n.id == e.target) <;> rw [hft] at h
  · cases h
  rw [Option.ite_none_left_eq_some] at h
  have h2 := Option.some_injective _ h.2
  rw [← h2]
  constructor
  · intro hid
    simp [hid]
  · intro hid
    simp [hid]

/-- Claim C7 counterexample: the surviving edge from "A" to "B" at
sequence index 0 with no declared id receives the id "e_A_B_0", not
"A_B_0" as the claim states. -/
theorem edge_id_C7_cex :
    (validEdges (transformNodes [⟨"A", "Event Begin", "event", [], []⟩,
        ⟨"B", "Do Thing", "function", [], []⟩]) [⟨none, "A", "B", none, none⟩]).map
      (fun r => r.id) = ["e_A_B_0"] ∧ ("e_A_B_0" : String) ≠ "A_B_0" := by decide

/-- Claim C7 witness: the amended id format at a concrete surviving
edge. -/
theorem edge_id_C7_witness :
    (⟨"e_A_B_0", "A", "B", some "A_Output", some "B_Exec"⟩ : REdge).id =
      "e_" ++ "A" ++ "_" ++ "B" ++ "_" ++ toString (0 : Nat) :=
  (edge_id_C7 (transformNodes [⟨"A", "Event Begin", "event", [], []⟩,
      ⟨"B", "Do Thing", "function", [], []⟩]) 0 ⟨none, "A", "B", none, none⟩
      ⟨"e_A_B_0", "A", "B", some "A_Output", some "B_Exec"⟩ (by decide)).1 rfl

/-- All six dispatch guards only read the label and the kind. -/
theorem conds_congr (m n : RawNode) (hl : m.label = n.label)
    (ht : m.nodeType = n.nodeType) :
    isBranchCond m = isBranchCond n ∧ isEventCond m = isEventCond n ∧
    isSeqCond m = isSeqCond n ∧ isVarSetCond m = isVarSetCond n ∧
    isVarGetCond m = isVarGetCond n ∧ isForCond m = isForCond n := by
  unfold isBranchCond isEventCond isSeqCond isVarSetCond isVarGetCond isForCond
  rw [hl, ht]
  simp

/-- The dispatch of `ensureDefaultPins` evaluated through the guards of
a node with the same label and kind. -/
theorem dispatch_eq (m n : RawNode) (hl : m.label = n.label)
    (ht : m.nodeType = n.nodeType) :
    ensureDefaultPins m =
      if isBranchCond n then branchFix m
      else if isEventCond n then eventFix m
      else if isSeqCond n then seqFix m
      else if isVarSetCond n then varSetFix m
      else if isVarGetCond n then varGetFix m
      else if isForCond n then forLoopFix m
      else genericFix m := by
  obtain ⟨c1, c2, c3, c4, c5, c6⟩ := conds_congr m n hl ht
  unfold ensureDefaultPins
  rw [c1, c2, c3, c4, c5, c6]

/-- A Branch/If node already satisfying all four pin guards is untouched. -/
theorem branchFix_fixed (m : RawNode)
    (h1 : hasExecPin m.inputs = true)
    (h2 : m.inputs.any (fun p => p.type == "boolean") = true)
    (h3 : m.outputs.any (fun p => p.name == "True") = true)
    (h4 : m.outputs.any (fun p => p.name == "False") = true) :
    branchFix m = m := by
  unfold branchFix
  rw [h1, h3]
  simp only [if_true]
  rw [h2, h4]
  simp only [if_true]

/-- The Branch/If repair is idempotent. -/
theorem branchFix_idem (n : RawNode) : branchFix (branchFix n) = branchFix n := by
  apply branchFix_fixed
  · unfold branchFix hasExecPin
    exact any_ite_keep (any_ite_cons_self n.inputs rfl)
  · unfold branchFix
    exact any_ite_append_self _ rfl
  · unfold branchFix
    exact any_ite_keep (any_ite_append_self n.outputs rfl)
  · unfold branchFix
    exact any_ite_append_self _ rfl

/-- An event node with an Exec output is untouched. -/
theorem eventFix_fixed (m : RawNode) (h : hasExecPin m.outputs = true) :
    eventFix m = m := by
  simp [eventFix, h]

/-- The event repair is idempotent. -/
theorem eventFix_idem (n : RawNode) : eventFix (eventFix n) = eventFix n := by
  apply eventFix_fixed
  unfold eventFix hasExecPin
  exact any_ite_cons_self n.outputs rfl

/-- A Sequence node with an Exec input and two or more outputs is
untouched. -/
theorem seqFix_fixed (m : RawNode) (h1 : hasExecPin m.inputs = true)
    (h2 : ¬(m.outputs.length < 2)) : seqFix m = m := by
  simp [seqFix, h1, h2]

/-- The Sequence repair is idempotent. -/
theorem seqFix_idem (n : RawNode) : seqFix (seqFix n) = seqFix n := by
  apply seqFix_fixed
  · unfold seqFix hasExecPin
    exact any_ite_cons_self n.inputs rfl
  · unfold seqFix
    by_cases h : n.outputs.length < 2 <;> simp [h]

/-- A variable-set node with Exec pins on both sides is untouched. -/
theorem varSetFix_fixed (m : RawNode) (h1 : hasExecPin m.inputs = true)
    (h2 : hasExecPin m.outputs = true) : varSetFix m = m := by
  simp [varSetFix, h1, h2]

/-- The variable-set repair is idempotent. -/
theorem varSetFix_idem (n : RawNode) : varSetFix (varSetFix n) = varSetFix n := by
  apply varSetFix_fixed
  · unfold varSetFix hasExecPin
    exact any_ite_cons_self n.inputs rfl
  · unfold varSetFix hasExecPin
    exact any_ite_cons_self n.outputs rfl

/-- A variable-get node with a non-empty output list is untouched. -/
theorem varGetFix_fixed (m : RawNode) (h : (m.outputs.length == 0) = false) :
    varGetFix m = m := by
  simp only [varGetFix, h, Bool.and_false, Bool.false_eq_true, if_false]

/-- The variable-get repair always yields outputs. -/
theorem varGetFix_outputs_ne (n : RawNode) :
    ((varGetFix n).outputs.length == 0) = false := by
  unfold varGetFix
  by_cases hc : (n.inputs.length > 0 && n.outputs.length == 0) = true
  · obtain ⟨hi, _⟩ := Bool.and_eq_true_iff.mp hc
    simp only [hc, if_true]
    have hi2 : n.inputs.length ≠ 0 := by
      simp only [decide_eq_true_eq] at hi
      omega
    simp [hi2]
  · simp only [Bool.not_eq_true] at hc
    simp only [hc, Bool.false_eq_true, if_false]
    by_cases h2 : (n.outputs.length == 0) = true
    · simp [h2]
    · simp only [Bool.not_eq_true] at h2
      simp [h2]

/-- The variable-get repair is idempotent. -/
theorem varGetFix_idem (n : RawNode) : varGetFix (varGetFix n) = varGetFix n :=
  varGetFix_fixed _ (varGetFix_outputs_ne n)

/-- A loop node already satisfying the three loop guards is untouched. -/
theorem forLoopFix_fixed (m : RawNode)
    (h1 : hasExecPin m.inputs = true)
    (h2 : m.outputs.any (fun p => p.name == "Loop Body") = true)
    (h3 : m.outputs.any (fun p => p.name == "Completed") = true) :
    forLoopFix m = m := by
  unfold forLoopFix
  rw [h1, h2]
  simp only [if_true]
  rw [h3]
  simp only [if_true]

/-- The loop repair is idempotent. -/
theorem forLoopFix_idem (n : RawNode) : forLoopFix (forLoopFix n) = forLoopFix n := by
  apply forLoopFix_fixed
  · unfold forLoopFix hasExecPin
    exact any_ite_cons_self n.inputs rfl
  · unfold forLoopFix
    exact any_ite_keep (any_ite_append_self n.outputs rfl)
  · unfold forLoopFix
    exact any_ite_append_self _ rfl

/-- The label survives the generic repair. -/
theorem genericFix_label (n : RawNode) : (genericFix n).label = n.label := by
  unfold genericFix
  split <;> rfl

/-- The kind survives the generic repair. -/
theorem genericFix_nodeType (n : RawNode) :
    (genericFix n).nodeType = n.nodeType := by
  unfold genericFix
  split <;> rfl

/-- A node with Exec pins on both sides is untouched by the generic
repair, whether or not it is pure. -/
theorem genericFix_fixed (m : RawNode) (h1 : hasExecPin m.inputs = true)
    (h2 : hasExecPin m.outputs = true) : genericFix m = m := by
  unfold genericFix
  split
  · simp [h1, h2]
  · rfl

/-- The generic repair is idempotent. -/
theorem genericFix_idem (n : RawNode) : genericFix (genericFix n) = genericFix n := by
  by_cases hc :
      (!isLikelyPure n && n.nodeType != "comment" && n.nodeType != "variable_get") = true
  · apply genericFix_fixed
    · unfold genericFix
      rw [if_pos hc]
      unfold hasExecPin
      exact any_ite_cons_self n.inputs rfl
    · unfold genericFix
      rw [if_pos hc]
      unfold hasExecPin
      exact any_ite_cons_self n.outputs rfl
  · have e : genericFix n = n := by
      unfold genericFix
      rw [if_neg hc]
    rw [e]
    exact e

/-- Claim C3 (confirmed): the schema normalizer is idempotent — for
every raw node shape, normalizing a normalized node changes nothing. -/
theorem normalize_idem_C3 (n : RawNode) :
    ensureDefaultPins (ensureDefaultPins n) = ensureDefaultPins n := by
  by_cases h1 : isBranchCond n = true
  · have e1 : ensureDefaultPins n = branchFix n := by
      simp [ensureDefaultPins, h1]
    rw [e1, dispatch_eq (branchFix n) n rfl rfl]
    simp [h1, branchFix_idem]
  by_cases h2 : isEventCond n = true
  · have e1 : ensureDefaultPins n = eventFix n := by
      simp [ensureDefaultPins, h1, h2]
    rw [e1, dispatch_eq (eventFix n) n rfl rfl]
    simp [h1, h2, eventFix_idem]
  by_cases h3 : isSeqCond n = true
  · have e1 : ensureDefaultPins n = seqFix n := by
      simp [ensureDefaultPins, h1, h2, h3]
    rw [e1, dispatch_eq (seqFix n) n rfl rfl]
    simp [h1, h2, h3, seqFix_idem]
  by_cases h4 : isVarSetCond n = true
  · have e1 : ensureDefaultPins n = varSetFix n := by
      simp [ensureDefaultPins, h1, h2, h3, h4]
    rw [e1, dispatch_eq (varSetFix n) n rfl rfl]
    simp [h1, h2, h3, h4, varSetFix_idem]
  by_cases h5 : isVarGetCond n = true
  · have e1 : ensureDefaultPins n = varGetFix n := by
      simp [ensureDefaultPins, h1, h2, h3, h4, h5]
    rw [e1, dispatch_eq (varGetFix n) n rfl rfl]
    simp [h1, h2, h3, h4, h5, varGetFix_idem]
  by_cases h6 : isForCond n = true
  · have e1 : ensureDefaultPins n = forLoopFix n := by
      simp [ensureDefaultPins, h1, h2, h3, h4, h5, h6]
    rw [e1, dispatch_eq (forLoopFix n) n rfl rfl]
    simp [h1, h2, h3, h4, h5, h6, forLoopFix_idem]
  · have e1 : ensureDefaultPins n = genericFix n := by
      simp [ensureDefaultPins, h1, h2, h3, h4, h5, h6]
    rw [e1, dispatch_eq (genericFix n) n (genericFix_label n) (genericFix_nodeType n)]
    simp [h1, h2, h3, h4, h5, h6, genericFix_idem]

/-- Sandwiching is reflexive. -/
theorem sandwiched_refl (l : List Pin) : pinsSandwiched l l :=
  ⟨[], [], by simp⟩

/-- Sandwiching composes. -/
theorem sandwiched_trans {a b c : List Pin} (h1 : pinsSandwiched a b)
    (h2 : pinsSandwiched b c) : pinsSandwiched a c := by
  obtain ⟨p1, q1, e1⟩ := h1
  obtain ⟨p2, q2, e2⟩ := h2
  exact ⟨p2 ++ p1, q1 ++ q2, by simp [e2, e1]⟩

/-- The "prepend unless present" repair step only prepends. -/
theorem sandwiched_ite_cons (l : List Pin) (x : Pin) {c : Prop} [Decidable c] :
    pinsSandwiched l (if c then l else x :: l) := by
  split_ifs
  · exact sandwiched_refl l
  · exact ⟨[x], [], by simp⟩

/-- The "append unless present" repair step only appends. -/
theorem sandwiched_ite_append (l : List Pin) (x : Pin) {c : Prop} [Decidable c] :
    pinsSandwiched l (if c then l else l ++ [x]) := by
  split_ifs
  · exact sandwiched_refl l
  · exact ⟨[], [x], by simp⟩

/-- The Sequence "append two pins when short" step only appends. -/
theorem sandwiched_ite_append_two (l : List Pin) (x y : Pin) {c : Prop}
    [Decidable c] : pinsSandwiched l (if c then l ++ [x, y] else l) := by
  split_ifs
  · exact ⟨[], [x, y], by simp⟩
  · exact sandwiched_refl l

/-- Claim C10 (confirmed): normalization only adds pins — for every raw
node not classified VariableGet, the normalized inputs are the raw
inputs with injected pins only prepended or appended, and likewise for
outputs; for a VariableGet-classified node with inputs and no outputs,
the raw inputs become the outputs unchanged and the inputs are cleared. -/
theorem normalize_frame_C10 (n : RawNode) :
    (classifiedVarGet n = false →
      pinsSandwiched n.inputs (ensureDefaultPins n).inputs ∧
      pinsSandwiched n.outputs (ensureDefaultPins n).outputs) ∧
    (classifiedVarGet n = true → n.inputs ≠ [] → n.outputs = [] →
      (ensureDefaultPins n).inputs = [] ∧ (ensureDefaultPins n).outputs = n.inputs) := by
  constructor
  · intro hvg
    by_cases h1 : isBranchCond n = true
    · have e1 : ensureDefaultPins n = branchFix n := by
        simp [ensureDefaultPins, h1]
      rw [e1]
      unfold branchFix
      exact ⟨sandwiched_trans (sandwiched_ite_cons _ _) (sandwiched_ite_append _ _),
             sandwiched_trans (sandwiched_ite_append _ _) (sandwiched_ite_append _ _)⟩
    by_cases h2 : isEventCond n = true
    · have e1 : ensureDefaultPins n = eventFix n := by
        simp [ensureDefaultPins, h1, h2]
      rw [e1]
      unfold eventFix
      exact ⟨sandwiched_refl _, sandwiched_ite_cons _ _⟩
    by_cases h3 : isSeqCond n = true
    · have e1 : ensureDefaultPins n = seqFix n := by
        simp [ensureDefaultPins, h1, h2, h3]
      rw [e1]
      unfold seqFix
      exact ⟨sandwiched_ite_cons _ _, sandwiched_ite_append_two _ _ _⟩
    by_cases h4 : isVarSetCond n = true
    · have e1 : ensureDefaultPins n = varSetFix n := by
        simp [ensureDefaultPins, h1, h2, h3, h4]
      rw [e1]
      unfold varSetFix
      exact ⟨sandwiched_ite_cons _ _, sandwiched_ite_cons _ _⟩
    by_cases h5 : isVarGetCond n = true
    · exfalso
      have : classifiedVarGet n = true := by
        simp only [Bool.not_eq_true] at h1 h2 h3 h4
        simp [classifiedVarGet, h1, h2, h3, h4, h5]
      rw [this] at hvg
      cases hvg
    by_cases h6 : isForCond n = true
    · have e1 : ensureDefaultPins n = forLoopFix n := by
        simp [ensureDefaultPins, h1, h2, h3, h4, h5, h6]
      rw [e1]
      unfold forLoopFix
      exact ⟨sandwiched_ite_cons _ _,
             sandwiched_trans (sandwiched_ite_append _ _) (sandwiched_ite_append _ _)⟩
    · have e1 : ensureDefaultPins n = genericFix n := by
        simp [ensureDefaultPins, h1, h2, h3, h4, h5, h6]
      rw [e1]
      unfold genericFix
      split
      · exact ⟨sandwiched_ite_cons _ _, sandwiched_ite_cons _ _⟩
      · exact ⟨sandwiched_refl _, sandwiched_refl _⟩
  · intro hvg hin ho
    have hparts : isBranchCond n = false ∧ isEventCond n = false ∧
        isSeqCond n = false ∧ isVarSetCond n = false ∧ isVarGetCond n = true := by
      simp only [classifiedVarGet, Bool.and_eq_true, Bool.not_eq_true'] at hvg
      exact ⟨hvg.1.1.1.1, hvg.1.1.1.2, hvg.1.1.2, hvg.1.2, hvg.2⟩
    obtain ⟨hc1, hc2, hc3, hc4, hc5⟩ := hparts
    have e1 : ensureDefaultPins n = varGetFix n := by
      simp [ensureDefaultPins, hc1, hc2, hc3, hc4, hc5]
    rw [e1]
    have hl1 : (n.inputs.length > 0 && n.outputs.length == 0) = true := by
      rw [ho]
      simp [List.length_pos, hin]
    have hl2 : (n.inputs.length == 0) = false := by
      simp [List.length_eq_zero, hin]
    unfold varGetFix
    rw [hl1]
    simp only [if_true]
    rw [hl2]
    simp

/-- Claim C10 witness: a generic node gains sandwiched pins; a
VariableGet node with one input and no outputs transfers it. -/
theorem normalize_frame_C10_witness :
    (pinsSandwiched [] (ensureDefaultPins ⟨"F", "Do Thing", "function", [], []⟩).inputs ∧
     pinsSandwiched [] (ensureDefaultPins ⟨"F", "Do Thing", "function", [], []⟩).outputs) ∧
    ((ensureDefaultPins ⟨"G", "MyVar", "variable_get",
        [⟨"g1", "V", "float"⟩], []⟩).inputs = [] ∧
     (ensureDefaultPins ⟨"G", "MyVar", "variable_get",
        [⟨"g1", "V", "float"⟩], []⟩).outputs = [⟨"g1", "V", "float"⟩]) :=
  ⟨(normalize_frame_C10 ⟨"F", "Do Thing", "function", [], []⟩).1 (by decide),
   (normalize_frame_C10 ⟨"G", "MyVar", "variable_get",
      [⟨"g1", "V", "float"⟩], []⟩).2 (by decide) (by decide) rfl⟩

/-- Lookup after setting the same key. -/
theorem lookup_updRank_self (r : List (String × Nat)) (k : String) (v : Nat) :
    List.lookup k (updRank r k v) = some v := by
  induction r with
  | nil => simp [updRank, List.lookup]
  | cons p rest ih =>
    obtain ⟨k', v'⟩ := p
    by_cases h : (k' == k) = true
    · simp [updRank, h, List.lookup]
    · have h2 : (k == k') = false := by
        rw [Bool.not_eq_true, beq_eq_false_iff_ne] at h
        rw [beq_eq_false_iff_ne]
        exact fun he => h he.symm
      simp [updRank, h, List.lookup, h2, ih]

/-- Lookup of another key after an update. -/
theorem lookup_updRank_ne (r : List (String × Nat)) (k x : String) (v : Nat)
    (h : x ≠ k) : List.lookup x (updRank r k v) = List.lookup x r := by
  have hxk : (x == k) = false := beq_eq_false_iff_ne.mpr h
  induction r with
  | nil => simp [updRank, List.lookup, hxk]
  | cons p rest ih =>
    obtain ⟨k', v'⟩ := p
    by_cases hk : (k' == k) = true
    · have hk2 : (x == k') = false := by
        rw [beq_eq_false_iff_ne]
        exact fun he => h (he.trans (eq_of_beq hk))
      simp [updRank, hk, List.lookup, hxk, hk2]
    · simp only [updRank, hk, Bool.false_eq_true, if_false]
      rw [List.lookup_cons, List.lookup_cons]
      cases x == k'
      · exact ih
      · rfl

/-- The recorded rank of the visited node after one update: defined and
at least the visiting rank. -/
theorem rsu_lookup_self (r : List (String × Nat)) (id : String) (rk : Nat) :
    ∃ v, List.lookup id (rankStepUpdate r id rk) = some v ∧ rk ≤ v ∧
      (List.lookup id r = some v ∨ v = rk) := by
  unfold rankStepUpdate
  cases h : List.lookup id r with
  | none => exact ⟨rk, lookup_updRank_self r id rk, le_refl rk, Or.inr rfl⟩
  | some cur =>
    dsimp only
    by_cases hc : cur < rk
    · rw [if_pos hc]
      exact ⟨rk, lookup_updRank_self r id rk, le_refl rk, Or.inr rfl⟩
    · rw [if_neg hc]
      exact ⟨cur, h, Nat.le_of_not_lt hc, Or.inl rfl⟩

/-- Ranks of other keys survive one update unchanged. -/
theorem rsu_lookup_ne (r : List (String × Nat)) (id : String) (rk : Nat)
    (x : String) (h : x ≠ id) :
    List.lookup x (rankStepUpdate r id rk) = List.lookup x r := by
  unfold rankStepUpdate
  cases List.lookup id r with
  | none => exact lookup_updRank_ne r id x rk h
  | some cur =>
    dsimp only
    split_ifs
    · exact lookup_updRank_ne r id x rk h
    · rfl

/-- Recorded ranks never decrease across one update. -/
theorem rsu_mono (r : List (String × Nat)) (id : String) (rk : Nat)
    (x : String) (w : Nat) (h : List.lookup x r = some w) :
    ∃ v, List.lookup x (rankStepUpdate r id rk) = some v ∧ w ≤ v := by
  by_cases hx : x = id
  · subst hx
    unfold rankStepUpdate
    rw [h]
    dsimp only
    split_ifs with hw
    · exact ⟨rk, lookup_updRank_self r x rk, Nat.le_of_lt hw⟩
    · exact ⟨w, h, le_refl w⟩
  · rw [rsu_lookup_ne r id rk x hx]
    exact ⟨w, h, le_refl w⟩

/-- Every adjacency arc out of the visited node is, after the visit,
either already satisfied in the ranks or freshly queued. -/
theorem push_or_defined (adj : String → List String) (r' : List (String × Nat))
    (id : String) (rk : Nat) (t : String) (ht : t ∈ adj id) :
    (∃ rt, List.lookup t r' = some rt ∧ rk + 1 ≤ rt) ∨
    (t, rk + 1) ∈ rankPushes adj r' id rk := by
  cases hl : List.lookup t r' with
  | none =>
    right
    unfold rankPushes
    refine List.mem_map.mpr ⟨t, List.mem_filter.mpr ⟨ht, ?_⟩, rfl⟩
    simp [hl]
  | some cur =>
    by_cases hc : cur < rk + 1
    · right
      unfold rankPushes
      refine List.mem_map.mpr ⟨t, List.mem_filter.mpr ⟨ht, ?_⟩, rfl⟩
      simp [hl, hc]
    · left
      exact ⟨cur, rfl, Nat.le_of_not_lt hc⟩

/-- One relaxation step preserves the loop invariant. -/
theorem rankInv_step (adj : String → List String) (id : String) (rk : Nat)
    (rest r : List (String × Nat))
    (h : rankInv adj ((id, rk) :: rest) r) :
    rankInv adj (rest ++ rankPushes adj (rankStepUpdate r id rk) id rk)
      (rankStepUpdate r id rk) := by
  intro s t hadj rs hs
  by_cases hsid : s = id
  · subst hsid
    obtain ⟨v, hv, hrkv, hcase⟩ := rsu_lookup_self r s rk
    have hvr : v = rs := by
      rw [hv] at hs
      injection hs
    subst hvr
    by_cases hvrk : v = rk
    · subst hvrk
      rcases push_or_defined adj (rankStepUpdate r s v) s v t hadj with hdef | hpush
      · exact Or.inl hdef
      · exact Or.inr (Or.inl ⟨(t, v + 1), List.mem_append_right _ hpush, rfl, le_refl _⟩)
    · have hold : List.lookup s r = some v := by
        rcases hcase with hc | hc
        · exact hc
        · exact absurd hc hvrk
      rcases h s t hadj v hold with ⟨rt, hrt, hle⟩ | ⟨p, hp, hpt, hple⟩ | ⟨p, hp, hps, hple⟩
      · obtain ⟨v2, hv2, hle2⟩ := rsu_mono r s rk t rt hrt
        exact Or.inl ⟨v2, hv2, le_trans hle hle2⟩
      · rcases List.mem_cons.mp hp with rfl | hp'
        · exact absurd (le_antisymm hrkv (le_trans (Nat.le_succ v) hple)).symm hvrk
        · exact Or.inr (Or.inl ⟨p, List.mem_append_left _ hp', hpt, hple⟩)
      · rcases List.mem_cons.mp hp with rfl | hp'
        · exact absurd (le_antisymm hple hrkv) hvrk
        · exact Or.inr (Or.inr ⟨p, List.mem_append_left _ hp', hps, hple⟩)
  · have hs0 : List.lookup s r = some rs := by
      rw [← rsu_lookup_ne r id rk s hsid]
      exact hs
    rcases h s t hadj rs hs0 with ⟨rt, hrt, hle⟩ | ⟨p, hp, hpt, hple⟩ | ⟨p, hp, hps, hple⟩
    · obtain ⟨v2, hv2, hle2⟩ := rsu_mono r id rk t rt hrt
      exact Or.inl ⟨v2, hv2, le_trans hle hle2⟩
    · rcases List.mem_cons.mp hp with rfl | hp'
      · obtain ⟨v, hv, hrkv, _⟩ := rsu_lookup_self r id rk
        rw [show t = id from hpt.symm]
        exact Or.inl ⟨v, hv, le_trans hple hrkv⟩
      · exact Or.inr (Or.inl ⟨p, List.mem_append_left _ hp', hpt, hple⟩)
    · rcases List.mem_cons.mp hp with rfl | hp'
      · exact absurd hps.symm hsid
      · exact Or.inr (Or.inr ⟨p, List.mem_append_left _ hp', hps, hple⟩)

/-- A terminating run of the relaxation loop carries the invariant to
the final ranks with an empty queue. -/
theorem rankLoop_inv (adj : String → List String) (fuel : Nat) :
    ∀ q r R, rankLoop adj fuel q r = some R → rankInv adj q r →
      rankInv adj [] R := by
  induction fuel with
  | zero =>
    intro q r R hrun hinv
    cases q with
    | nil =>
      simp only [rankLoop, Option.some_inj] at hrun
      subst hrun
      exact hinv
    | cons p rest => simp [rankLoop] at hrun
  | succ fuel ih =>
    intro q r R hrun hinv
    cases q with
    | nil =>
      simp only [rankLoop, Option.some_inj] at hrun
      subst hrun
      exact hinv
    | cons p rest =>
      obtain ⟨id, rk⟩ := p
      exact ih _ _ _ hrun (rankInv_step adj id rk rest r hinv)

/-- Recorded ranks never disappear and never decrease over a
terminating run. -/
theorem rankLoop_mono (adj : String → List String) (fuel : Nat) :
    ∀ q r R, rankLoop adj fuel q r = some R →
      ∀ x w, List.lookup x r = some w →
        ∃ v, List.lookup x R = some v ∧ w ≤ v := by
  induction fuel with
  | zero =>
    intro q r R hrun x w hx
    cases q with
    | nil =>
      simp only [rankLoop, Option.some_inj] at hrun
      subst hrun
      exact ⟨w, hx, le_refl w⟩
    | cons p rest => simp [rankLoop] at hrun
  | succ fuel ih =>
    intro q r R hrun x w hx
    cases q with
    | nil =>
      simp only [rankLoop, Option.some_inj] at hrun
      subst hrun
      exact ⟨w, hx, le_refl w⟩
    | cons p rest =>
      obtain ⟨id, rk⟩ := p
      obtain ⟨v1, hv1, hle1⟩ := rsu_mono r id rk x w hx
      obtain ⟨v2, hv2, hle2⟩ := ih _ _ _ hrun x v1 hv1
      exact ⟨v2, hv2, le_trans hle1 hle2⟩

/-- Every queued entry ends up with a recorded rank when the loop
terminates. -/
theorem rankLoop_queue_defined (adj : String → List String) (fuel : Nat) :
    ∀ q r R, rankLoop adj fuel q r = some R →
      ∀ p ∈ q, ∃ v, List.lookup p.1 R = some v := by
  induction fuel with
  | zero =>
    intro q r R hrun p hp
    cases q with
    | nil => cases hp
    | cons p0 rest => simp [rankLoop] at hrun
  | succ fuel ih =>
    intro q r R hrun p hp
    cases q with
    | nil => cases hp
    | cons p0 rest =>
      obtain ⟨id, rk⟩ := p0
      rcases List.mem_cons.mp hp with rfl | hp'
      · obtain ⟨v, hv, _, _⟩ := rsu_lookup_self r id rk
        obtain ⟨v2, hv2, _⟩ := rankLoop_mono adj fuel _ _ _ hrun id v hv
        exact ⟨v2, hv2⟩
      · exact ih _ _ _ hrun p (List.mem_append_left _ hp')

/-- Membership in the forward adjacency list. -/
theorem mem_adjOf (nodes : List LNode) (edges : List LEdge) (s t : String) :
    t ∈ adjOf nodes edges s ↔
      (nodes.any (fun n => n.id == s)) = true ∧
      ∃ e ∈ edges, e.source = s ∧ e.target = t := by
  unfold adjOf
  split_ifs with h
  · simp only [h, true_and, List.mem_map, List.mem_filter]
    constructor
    · rintro ⟨e, ⟨he, hsrc⟩, rfl⟩
      exact ⟨e, he, eq_of_beq hsrc, rfl⟩
    · rintro ⟨e, he, hsrc, rfl⟩
      exact ⟨e, ⟨he, beq_iff_eq.mpr hsrc⟩, rfl⟩
  · simp only [List.not_mem_nil, false_iff, not_and]
    intro hc
    exact absurd hc h

/-- Membership in the reverse adjacency list. -/
theorem mem_invAdjOf (nodes : List LNode) (edges : List LEdge) (t s : String) :
    s ∈ invAdjOf nodes edges t ↔
      (nodes.any (fun n => n.id == t)) = true ∧
      ∃ e ∈ edges, e.target = t ∧ e.source = s := by
  unfold invAdjOf
  split_ifs with h
  · simp only [h, true_and, List.mem_map, List.mem_filter]
    constructor
    · rintro ⟨e, ⟨he, htgt⟩, rfl⟩
      exact ⟨e, he, eq_of_beq htgt, rfl⟩
    · rintro ⟨e, he, htgt, rfl⟩
      exact ⟨e, ⟨he, beq_iff_eq.mpr htgt⟩, rfl⟩
  · simp only [List.not_mem_nil, false_iff, not_and]
    intro hc
    exact absurd hc h

/-- A node with no incoming edges is seeded into the initial queue at
rank 0. -/
theorem mem_initQueue_of_source (nodes : List LNode) (edges : List LEdge)
    (n : LNode) (hn : n ∈ nodes) (hia : invAdjOf nodes edges n.id = []) :
    (n.id, 0) ∈ initQueue nodes edges := by
  unfold initQueue
  have hmem : n ∈ nodes.filter
      (fun m => ((invAdjOf nodes edges m.id).length == 0)) :=
    List.mem_filter.mpr ⟨hn, by simp [hia]⟩
  have hq : (n.id, (0 : Nat)) ∈ (nodes.filter
      (fun m => ((invAdjOf nodes edges m.id).length == 0))).map
        (fun m => (m.id, (0 : Nat))) :=
    List.mem_map.mpr ⟨n, hmem, rfl⟩
  have hne : ((nodes.filter
      (fun m => ((invAdjOf nodes edges m.id).length == 0))).map
        (fun m => (m.id, (0 : Nat)))).isEmpty = false := by
    rw [List.isEmpty_eq_false_iff_exists_mem]
    exact ⟨_, hq⟩
  dsimp only
  rw [hne]
  simp only [Bool.false_and, Bool.false_eq_true, if_false]
  exact hq

/-- Claim C8 (confirmed): on an acyclic graph (witnessed by a
topological numbering) whose edges connect given nodes, any terminating
run of the rank-relaxation loop assigns every edge's target a rank at
least one greater than its source's rank. -/
theorem layout_rank_C8 (nodes : List LNode) (edges : List LEdge)
    (hclosed : ∀ e ∈ edges,
      (∃ n ∈ nodes, n.id = e.source) ∧ (∃ n ∈ nodes, n.id = e.target))
    (topo : String → Nat) (htopo : ∀ e ∈ edges, topo e.source < topo e.target)
    (fuel : Nat) (R : List (String × Nat))
    (hrun : runRanks nodes edges fuel = some R) :
    ∀ e ∈ edges, finalRank R e.source + 1 ≤ finalRank R e.target := by
  have hInv0 : rankInv (adjOf nodes edges) (initQueue nodes edges) [] := by
    intro s t _ rs hs
    simp [List.lookup] at hs
  have hInvEnd : rankInv (adjOf nodes edges) [] R :=
    rankLoop_inv _ fuel _ _ R hrun hInv0
  have hdef : ∀ k, ∀ n, n ∈ nodes → topo n.id = k →
      ∃ v, List.lookup n.id R = some v := by
    intro k
    induction k using Nat.strong_induction_on with
    | _ k ih =>
      intro n hn htk
      cases hia : invAdjOf nodes edges n.id with
      | nil =>
        exact rankLoop_queue_defined _ fuel _ _ R hrun (n.id, 0)
          (mem_initQueue_of_source nodes edges n hn hia)
      | cons s0 tl =>
        have hs0 : s0 ∈ invAdjOf nodes edges n.id := by
          rw [hia]
          exact List.mem_cons_self s0 tl
        obtain ⟨_, e, he, hetgt, hesrc⟩ := (mem_invAdjOf nodes edges n.id s0).mp hs0
        obtain ⟨m, hm, hmid⟩ := (hclosed e he).1
        have hlt : topo m.id < k := by
          rw [hmid, ← htk, ← hetgt]
          exact htopo e he
        obtain ⟨vs, hvs⟩ := ih (topo m.id) hlt m hm rfl
        have hadj : n.id ∈ adjOf nodes edges s0 := by
          rw [mem_adjOf]
          refine ⟨List.any_eq_true.mpr ⟨m, hm, ?_⟩, e, he, hesrc, hetgt⟩
          simp [hmid, hesrc]
        have hvs0 : List.lookup s0 R = some vs := by
          rw [← hesrc, ← hmid]
          exact hvs
        rcases hInvEnd s0 n.id hadj vs hvs0 with ⟨rt, hrt, _⟩ | ⟨p, hp, _⟩ | ⟨p, hp, _⟩
        · exact ⟨rt, hrt⟩
        · cases hp
        · cases hp
  intro e he
  obtain ⟨⟨ns, hns, hnsid⟩, ⟨nt, hnt, hntid⟩⟩ := hclosed e he
  obtain ⟨vs, hvs⟩ := hdef (topo ns.id) ns hns rfl
  have hadj : e.target ∈ adjOf nodes edges e.source := by
    rw [mem_adjOf]
    refine ⟨List.any_eq_true.mpr ⟨ns, hns, by simp [hnsid]⟩, e, he, rfl, rfl⟩
  have hvs0 : List.lookup e.source R = some vs := by
    rw [← hnsid]
    exact hvs
  rcases hInvEnd e.source e.target hadj vs hvs0 with ⟨rt, hrt, hle⟩ | ⟨p, hp, _⟩ | ⟨p, hp, _⟩
  · unfold finalRank
    rw [hvs0, hrt]
    exact hle
  · cases hp
  · cases hp

/-- Claim C8 witness: on the two-node graph A→B the loop assigns B a
rank one above A. -/
theorem layout_rank_C8_witness :
    finalRank [("A", 0), ("B", 1)] "A" + 1 ≤ finalRank [("A", 0), ("B", 1)] "B" :=
  layout_rank_C8 [⟨"A", "event"⟩, ⟨"B", "function"⟩] [⟨"A", "B"⟩] (by decide)
    (fun s => if s = "B" then 1 else 0) (by decide) 5 [("A", 0), ("B", 1)]
    (by decide) ⟨"A", "B"⟩ (by decide)

/-- Consecutive visits of the cyclic scenario hit different nodes. -/
theorem cycId_succ_ne (k : Nat) : cycId (k + 1) ≠ cycId k := by
  unfold cycId
  rcases Nat.mod_two_eq_zero_or_one k with h | h
  · have h2 : (k + 1) % 2 = 1 := by omega
    rw [h, h2]
    decide
  · have h2 : (k + 1) % 2 = 0 := by omega
    rw [h, h2]
    decide

/-- Two steps later the loop is back at the same node. -/
theorem cycId_add_two (k : Nat) : cycId (k + 2) = cycId k := by
  unfold cycId
  have h : (k + 2) % 2 = k % 2 := by omega
  rw [h]

/-- In the cyclic scenario each node's only outgoing neighbor is the
other node. -/
theorem cyc_adj (k : Nat) : adjOf cycNodes cycEdges (cycId k) = [cycId (k + 1)] := by
  unfold cycId
  rcases Nat.mod_two_eq_zero_or_one k with h | h
  · have h2 : (k + 1) % 2 = 1 := by omega
    rw [h, h2]
    decide
  · have h2 : (k + 1) % 2 = 0 := by omega
    rw [h, h2]
    decide

/-- The relaxation loop on the cycle A→B→A never terminates: from any
state of the alternating shape (one queue entry carrying the current
step count, both recorded ranks below it), every amount of fuel runs
out.  This is the unbounded rank-raising the source comments claim to
prevent with the unused `processed` set. -/
theorem cyc_loop_stuck (fuel : Nat) :
    ∀ k r, 1 ≤ k →
      (∀ j, List.lookup (cycId k) r = some j → j < k) →
      (∀ j, List.lookup (cycId (k + 1)) r = some j → j < k + 1) →
      rankLoop (adjOf cycNodes cycEdges) fuel [(cycId k, k)] r = none := by
  induction fuel with
  | zero =>
    intro k r _ _ _
    rfl
  | succ fuel ih =>
    intro k r hk h1 h2
    have hupd : rankStepUpdate r (cycId k) k = updRank r (cycId k) k := by
      unfold rankStepUpdate
      cases hl : List.lookup (cycId k) r with
      | none => rfl
      | some j =>
        dsimp only
        rw [if_pos (h1 j hl)]
    have hlook_k : List.lookup (cycId k) (updRank r (cycId k) k) = some k :=
      lookup_updRank_self r (cycId k) k
    have hlook_k1 : List.lookup (cycId (k + 1)) (updRank r (cycId k) k) =
        List.lookup (cycId (k + 1)) r :=
      lookup_updRank_ne r (cycId k) (cycId (k + 1)) k (cycId_succ_ne k)
    have hcond : (match List.lookup (cycId (k + 1)) (updRank r (cycId k) k) with
        | none => true
        | some cur => decide (cur < k + 1)) = true := by
      rw [hlook_k1]
      cases hl2 : List.lookup (cycId (k + 1)) r with
      | none => rfl
      | some j =>
        dsimp only
        exact decide_eq_true (h2 j hl2)
    have hpush : rankPushes (adjOf cycNodes cycEdges) (updRank r (cycId k) k)
        (cycId k) k = [(cycId (k + 1), k + 1)] := by
      unfold rankPushes
      rw [cyc_adj k]
      simp only [List.filter_cons, List.filter_nil, hcond, if_true,
        List.map_cons, List.map_nil]
    have estep : rankLoop (adjOf cycNodes cycEdges) (fuel + 1) [(cycId k, k)] r =
        rankLoop (adjOf cycNodes cycEdges) fuel
          ([] ++ rankPushes (adjOf cycNodes cycEdges)
              (rankStepUpdate r (cycId k) k) (cycId k) k)
          (rankStepUpdate r (cycId k) k) := rfl
    rw [estep, hupd, hpush]
    simp only [List.nil_append]
    refine ih (k + 1) (updRank r (cycId k) k) (le_trans hk (Nat.le_succ k)) ?_ ?_
    · intro j hj
      rw [hlook_k1] at hj
      exact h2 j hj
    · intro j hj
      rw [cycId_add_two, hlook_k] at hj
      injection hj with hj
      omega

/-- Claim C1 (code bug): on the two-node cycle A→B→A the layout
function never returns — whatever fuel the relaxation loop is given, the
queue is never exhausted, so `getLayoutedElements` as written loops
forever instead of terminating with positions for both nodes. -/
theorem cycle_layout_diverges_C1 (fuel : Nat) :
    getLayoutedElements cycNodes cycEdges fuel = none := by
  have hnone : runRanks cycNodes cycEdges fuel = none := by
    unfold runRanks
    have hq : initQueue cycNodes cycEdges = [("A", 0)] := by decide
    rw [hq]
    cases fuel with
    | zero => rfl
    | succ fuel =>
      have e1 : rankLoop (adjOf cycNodes cycEdges) (fuel + 1) [("A", 0)] [] =
          rankLoop (adjOf cycNodes cycEdges) fuel [("B", 1)] [("A", 0)] := rfl
      rw [e1]
      have hstuck := cyc_loop_stuck fuel 1 [("A", 0)] (le_refl 1) ?_ ?_
      · exact hstuck
      · intro j hj
        rw [show List.lookup (cycId 1) [("A", 0)] = none from rfl] at hj
        exact Option.noConfusion hj
      · intro j hj
        rw [show List.lookup (cycId 2) [("A", 0)] = some 0 from rfl] at hj
        injection hj with hj
        omega
  unfold getLayoutedElements
  rw [hnone]
  rfl

/-- Every placed entry of a column sits at or below the running cursor. -/
theorem placeRank_y_ge (x : ℚ) :
    ∀ (items : List WItem) (cur : ℚ), ∀ p ∈ placeRank x items cur, cur ≤ p.2.2 := by
  intro items
  induction items with
  | nil =>
    intro cur p hp
    cases hp
  | cons item rest ih =>
    intro cur p hp
    simp only [placeRank] at hp
    have hcur : cur ≤ (if (if item.avgY != maxSafeInteger then item.avgY else cur) < cur
        then cur else (if item.avgY != maxSafeInteger then item.avgY else cur)) := by
      split_ifs <;> linarith
    rcases List.mem_cons.mp hp with rfl | hp'
    · exact hcur
    · have := ih _ p hp'
      calc cur ≤ _ := hcur
        _ ≤ _ + 150 + 50 := by linarith
        _ ≤ p.2.2 := this

/-- Within one placed column, each later node sits at least node height
plus gap below each earlier one. -/
theorem placeRank_pairwise (x : ℚ) :
    ∀ (items : List WItem) (cur : ℚ),
      List.Pairwise (fun p q : String × ℚ × ℚ => p.2.2 + (150 + 50) ≤ q.2.2)
        (placeRank x items cur) := by
  intro items
  induction items with
  | nil =>
    intro cur
    exact List.Pairwise.nil
  | cons item rest ih =>
    intro cur
    simp only [placeRank]
    refine List.pairwise_cons.mpr ⟨?_, ih _⟩
    intro q hq
    have := placeRank_y_ge x rest _ q hq
    dsimp only
    linarith

/-- The keys of a placed column are the ordered item ids. -/
theorem placeRank_keys (x : ℚ) :
    ∀ (items : List WItem) (cur : ℚ),
      (placeRank x items cur).map (fun p => p.1) = items.map (fun i => i.id) := by
  intro items
  induction items with
  | nil =>
    intro cur
    rfl
  | cons item rest ih =>
    intro cur
    simp only [placeRank, List.map_cons, ih]

/-- The dictionary lookup equation on a cons cell. -/
theorem dictGet_cons {α : Type} (p : String × α) (rest : List (String × α))
    (k : String) :
    dictGet (p :: rest) k =
      match dictGet rest k with
      | some v => some v
      | none => if p.1 == k then some p.2 else none := rfl

/-- A JS-dictionary lookup across concatenation: later entries win. -/
theorem dictGet_append {α : Type} (l1 l2 : List (String × α)) (k : String) :
    dictGet (l1 ++ l2) k =
      match dictGet l2 k with
      | some v => some v
      | none => dictGet l1 k := by
  induction l1 with
  | nil =>
    simp only [List.nil_append]
    cases dictGet l2 k <;> rfl
  | cons p rest ih =>
    simp only [List.cons_append, dictGet_cons, ih]
    cases dictGet l2 k <;> cases dictGet rest k <;> rfl

/-- A key absent from a dictionary segment looks up to nothing. -/
theorem dictGet_eq_none_of_not_mem {α : Type} (l : List (String × α)) (k : String)
    (h : ∀ p ∈ l, p.1 ≠ k) : dictGet l k = none := by
  induction l with
  | nil => rfl
  | cons p rest ih =>
    unfold dictGet
    rw [ih (fun q hq => h q (List.mem_cons_of_mem _ hq))]
    have hb : (p.1 == k) = false :=
      beq_eq_false_iff_ne.mpr (h p (List.mem_cons_self p rest))
    simp [hb]

/-- A key present in a dictionary segment looks up to something. -/
theorem dictGet_isSome_of_mem {α : Type} (l : List (String × α)) (k : String)
    (h : k ∈ l.map (fun p => p.1)) : ∃ v, dictGet l k = some v := by
  induction l with
  | nil => cases h
  | cons p rest ih =>
    cases hd : dictGet rest k with
    | some v =>
      refine ⟨v, ?_⟩
      rw [dictGet_cons, hd]
    | none =>
      simp only [List.map_cons, List.mem_cons] at h
      rcases h with rfl | h'
      · refine ⟨p.2, ?_⟩
        rw [dictGet_cons, hd]
        simp
      · obtain ⟨v, hv⟩ := ih h'
        rw [hv] at hd
        cases hd

/-- A successful dictionary lookup returns an actual entry. -/
theorem dictGet_mem {α : Type} (l : List (String × α)) (k : String) (v : α)
    (h : dictGet l k = some v) : (k, v) ∈ l := by
  induction l with
  | nil => cases h
  | cons p rest ih =>
    unfold dictGet at h
    cases hd : dictGet rest k with
    | some w =>
      rw [hd] at h
      injection h with h
      subst h
      exact List.mem_cons_of_mem _ (ih hd)
    | none =>
      rw [hd] at h
      by_cases hb : (p.1 == k) = true
      · rw [if_pos hb] at h
        injection h with h
        have hp : p = (k, v) := by
          obtain ⟨a, b⟩ := p
          simp only at h hb
          rw [eq_of_beq hb, h]
        rw [← hp]
        exact List.mem_cons_self p rest
      · rw [if_neg hb] at h
        cases h

/-- Membership of an id in its rank group. -/
theorem mem_rankGroup (nodes : List LNode) (R : List (String × Nat)) (rk : Nat)
    (k : String) :
    k ∈ rankGroup nodes R rk ↔
      ∃ n ∈ nodes, n.id = k ∧ finalRank R n.id = rk := by
  unfold rankGroup
  simp only [List.mem_map, List.mem_filter]
  constructor
  · rintro ⟨n, ⟨hn, hr⟩, rfl⟩
    exact ⟨n, hn, rfl, by simpa using hr⟩
  · rintro ⟨n, hn, rfl, hr⟩
    exact ⟨n, ⟨hn, by simpa using hr⟩, rfl⟩

/-- The barycenter items of a column carry exactly the column's ids. -/
theorem itemsFor_keys (nodes : List LNode) (edges : List LEdge)
    (pos : List (String × ℚ × ℚ)) (ids : List String) :
    (itemsFor nodes edges pos ids).map (fun i => i.id) = ids := by
  unfold itemsFor
  induction ids with
  | nil => rfl
  | cons i rest ih =>
    simp only [List.map_cons]
    rw [ih]

/-- The keys of one column's placed segment are a permutation of the
rank group. -/
theorem seg_keys_perm (nodes : List LNode) (edges : List LEdge)
    (r : List (String × Nat)) (pos : List (String × ℚ × ℚ)) (rk : Nat) :
    ((placeRank ((rk : ℚ) * 450)
        ((itemsFor nodes edges pos (rankGroup nodes r rk)).mergeSort sortLe) 0).map
          (fun p => p.1)).Perm (rankGroup nodes r rk) := by
  rw [placeRank_keys]
  have h1 := (List.mergeSort_perm (itemsFor nodes edges pos (rankGroup nodes r rk))
    sortLe).map (fun i => i.id)
  rw [itemsFor_keys] at h1
  exact h1

/-- Two distinct members of a pairwise-related list are related one way
or the other. -/
theorem pairwise_rel_of_mem {α : Type} {R : α → α → Prop} {l : List α}
    (hp : List.Pairwise R l) {a b : α} (ha : a ∈ l) (hb : b ∈ l) (hne : a ≠ b) :
    R a b ∨ R b a := by
  induction l with
  | nil => cases ha
  | cons x xs ih =>
    obtain ⟨hx, hxs⟩ := List.pairwise_cons.mp hp
    rcases List.mem_cons.mp ha with rfl | ha'
    · rcases List.mem_cons.mp hb with rfl | hb'
      · exact absurd rfl hne
      · exact Or.inl (hx b hb')
    · rcases List.mem_cons.mp hb with rfl | hb'
      · exact Or.inr (hx a ha')
      · exact ih hxs ha' hb'

/-- Folding the later columns never touches a key whose rank is not
among them. -/
theorem fold_dictGet_frozen (nodes : List LNode) (edges : List LEdge)
    (r : List (String × Nat)) :
    ∀ (L : List Nat) (pos0 : List (String × ℚ × ℚ)) (k : String),
      (∀ rk ∈ L, finalRank r k ≠ rk) →
      dictGet (L.foldl
        (fun pos (rk : Nat) =>
          pos ++ placeRank ((rk : ℚ) * 450)
            ((itemsFor nodes edges pos (rankGroup nodes r rk)).mergeSort sortLe) 0)
        pos0) k = dictGet pos0 k := by
  intro L
  induction L with
  | nil =>
    intro pos0 k _
    rfl
  | cons rk0 L' ih =>
    intro pos0 k h
    rw [List.foldl_cons]
    rw [ih _ k (fun r' hr' => h r' (List.mem_cons_of_mem _ hr'))]
    rw [dictGet_append]
    have hnone : dictGet (placeRank ((rk0 : ℚ) * 450)
        ((itemsFor nodes edges pos0 (rankGroup nodes r rk0)).mergeSort sortLe) 0)
          k = none := by
      apply dictGet_eq_none_of_not_mem
      intro p hp hpk
      have hkmem : k ∈ rankGroup nodes r rk0 :=
        (seg_keys_perm nodes edges r pos0 rk0).mem_iff.mp
          (List.mem_map.mpr ⟨p, hp, hpk⟩)
      obtain ⟨n, _, rfl, hr⟩ := (mem_rankGroup nodes r rk0 k).mp hkmem
      exact h rk0 (List.mem_cons_self rk0 L') hr
    rw [hnone]

/-- Two distinct ids of one column end, in the final position
dictionary, at least the node height plus gap apart vertically. -/
theorem fold_spacing (nodes : List LNode) (edges : List LEdge)
    (r : List (String × Nat)) :
    ∀ (L : List Nat) (pos0 : List (String × ℚ × ℚ)) (rk : Nat),
      L.Nodup → rk ∈ L →
      ∀ k1 k2, k1 ≠ k2 →
        k1 ∈ rankGroup nodes r rk → k2 ∈ rankGroup nodes r rk →
        finalRank r k1 = rk → finalRank r k2 = rk →
        ∃ p1 p2,
          dictGet (L.foldl
            (fun pos (rk : Nat) =>
              pos ++ placeRank ((rk : ℚ) * 450)
                ((itemsFor nodes edges pos (rankGroup nodes r rk)).mergeSort sortLe) 0)
            pos0) k1 = some p1 ∧
          dictGet (L.foldl
            (fun pos (rk : Nat) =>
              pos ++ placeRank ((rk : ℚ) * 450)
                ((itemsFor nodes edges pos (rankGroup nodes r rk)).mergeSort sortLe) 0)
            pos0) k2 = some p2 ∧
          (p1.2 + (150 + 50) ≤ p2.2 ∨ p2.2 + (150 + 50) ≤ p1.2) := by
  intro L
  induction L with
  | nil =>
    intro pos0 rk _ hrk
    cases hrk
  | cons rk0 L' ih =>
    intro pos0 rk hnd hrk k1 k2 hne hg1 hg2 hr1 hr2
    obtain ⟨hhead, htail⟩ := List.nodup_cons.mp hnd
    rw [List.foldl_cons]
    rcases List.mem_cons.mp hrk with rfl | hrk'
    · -- this very column places both keys; later columns leave them alone
      have hseg1 : k1 ∈ (placeRank ((rk : ℚ) * 450)
          ((itemsFor nodes edges pos0 (rankGroup nodes r rk)).mergeSort sortLe)
            0).map (fun p => p.1) :=
        (seg_keys_perm nodes edges r pos0 rk).mem_iff.mpr hg1
      have hseg2 : k2 ∈ (placeRank ((rk : ℚ) * 450)
          ((itemsFor nodes edges pos0 (rankGroup nodes r rk)).mergeSort sortLe)
            0).map (fun p => p.1) :=
        (seg_keys_perm nodes edges r pos0 rk).mem_iff.mpr hg2
      obtain ⟨p1, hp1⟩ := dictGet_isSome_of_mem _ k1 hseg1
      obtain ⟨p2, hp2⟩ := dictGet_isSome_of_mem _ k2 hseg2
      have hm1 := dictGet_mem _ k1 p1 hp1
      have hm2 := dictGet_mem _ k2 p2 hp2
      have hpw := placeRank_pairwise ((rk : ℚ) * 450)
        ((itemsFor nodes edges pos0 (rankGroup nodes r rk)).mergeSort sortLe) 0
      have hsp := pairwise_rel_of_mem hpw hm1 hm2
        (fun hc => hne (congrArg Prod.fst hc))
      have hfr1 : dictGet (L'.foldl
          (fun pos (rk : Nat) =>
            pos ++ placeRank ((rk : ℚ) * 450)
              ((itemsFor nodes edges pos (rankGroup nodes r rk)).mergeSort sortLe) 0)
          (pos0 ++ placeRank ((rk : ℚ) * 450)
            ((itemsFor nodes edges pos0 (rankGroup nodes r rk)).mergeSort sortLe) 0))
          k1 = some p1 := by
        rw [fold_dictGet_frozen nodes edges r L' _ k1
          (fun r' hr' hc => hhead (by rw [hr1] at hc; rw [hc]; exact hr'))]
        rw [dictGet_append, hp1]
      have hfr2 : dictGet (L'.foldl
          (fun pos (rk : Nat) =>
            pos ++ placeRank ((rk : ℚ) * 450)
              ((itemsFor nodes edges pos (rankGroup nodes r rk)).mergeSort sortLe) 0)
          (pos0 ++ placeRank ((rk : ℚ) * 450)
            ((itemsFor nodes edges pos0 (rankGroup nodes r rk)).mergeSort sortLe) 0))
          k2 = some p2 := by
        rw [fold_dictGet_frozen nodes edges r L' _ k2
          (fun r' hr' hc => hhead (by rw [hr2] at hc; rw [hc]; exact hr'))]
        rw [dictGet_append, hp2]
      exact ⟨p1, p2, hfr1, hfr2, hsp⟩
    · exact ih _ rk htail hrk' k1 k2 hne hg1 hg2 hr1 hr2

/-- The running maximum of the grouping pass only grows. -/
theorem foldl_max_init (r : List (String × Nat)) :
    ∀ (l : List LNode) (acc : Nat),
      acc ≤ l.foldl (fun m n => max m (finalRank r n.id)) acc := by
  intro l
  induction l with
  | nil =>
    intro acc
    exact le_refl acc
  | cons x xs ih =>
    intro acc
    exact le_trans (le_max_left acc (finalRank r x.id)) (ih _)

/-- A member's rank is bounded by the folded maximum. -/
theorem foldl_max_mem (r : List (String × Nat)) :
    ∀ (l : List LNode) (acc : Nat) (n : LNode), n ∈ l →
      finalRank r n.id ≤ l.foldl (fun m x => max m (finalRank r x.id)) acc := by
  intro l
  induction l with
  | nil =>
    intro acc n hn
    cases hn
  | cons x xs ih =>
    intro acc n hn
    rcases List.mem_cons.mp hn with rfl | hn'
    · exact le_trans (le_max_right acc (finalRank r n.id)) (foldl_max_init r xs _)
    · exact ih _ n hn'

/-- Every node's rank is bounded by the computed `maxRank`. -/
theorem finalRank_le_maxRank (nodes : List LNode) (r : List (String × Nat))
    (n : LNode) (hn : n ∈ nodes) : finalRank r n.id ≤ maxRankOf nodes r :=
  foldl_max_mem r nodes 0 n hn

/-- Claim C9 (confirmed): whenever the relaxation loop terminates, any
two distinct nodes sharing a column receive y-coordinates at least node
height plus gap (150 + 50) apart, because each node's y is clamped to
the running cursor. -/
theorem layout_no_overlap_C9 (nodes : List LNode) (edges : List LEdge)
    (fuel : Nat) (R : List (String × Nat))
    (_hrun : runRanks nodes edges fuel = some R)
    (n1 n2 : LNode) (hn1 : n1 ∈ nodes) (hn2 : n2 ∈ nodes)
    (hne : n1.id ≠ n2.id)
    (hrk : finalRank R n1.id = finalRank R n2.id) :
    ∃ p1 p2,
      dictGet (layoutPositions nodes edges R) n1.id = some p1 ∧
      dictGet (layoutPositions nodes edges R) n2.id = some p2 ∧
      (p1.2 + (150 + 50) ≤ p2.2 ∨ p2.2 + (150 + 50) ≤ p1.2) := by
  have hg1 : n1.id ∈ rankGroup nodes R (finalRank R n1.id) :=
    (mem_rankGroup nodes R (finalRank R n1.id) n1.id).mpr ⟨n1, hn1, rfl, rfl⟩
  have hg2 : n2.id ∈ rankGroup nodes R (finalRank R n1.id) :=
    (mem_rankGroup nodes R (finalRank R n1.id) n2.id).mpr ⟨n2, hn2, rfl, hrk.symm⟩
  have hlt : finalRank R n1.id < maxRankOf nodes R + 1 :=
    Nat.lt_succ_of_le (finalRank_le_maxRank nodes R n1 hn1)
  unfold layoutPositions
  exact fold_spacing nodes edges R (List.range (maxRankOf nodes R + 1)) []
    (finalRank R n1.id) (List.nodup_range _) (List.mem_range.mpr hlt)
    n1.id n2.id hne hg1 hg2 rfl hrk.symm

/-- Claim C9 witness: two disconnected nodes share column 0 and are
placed 200 apart. -/
theorem layout_no_overlap_C9_witness :
    ∃ p1 p2,
      dictGet (layoutPositions [⟨"A", "function"⟩, ⟨"B", "function"⟩] []
        [("A", 0), ("B", 0)]) "A" = some p1 ∧
      dictGet (layoutPositions [⟨"A", "function"⟩, ⟨"B", "function"⟩] []
        [("A", 0), ("B", 0)]) "B" = some p2 ∧
      (p1.2 + (150 + 50) ≤ p2.2 ∨ p2.2 + (150 + 50) ≤ p1.2) :=
  layout_no_overlap_C9 [⟨"A", "function"⟩, ⟨"B", "function"⟩] [] 5
    [("A", 0), ("B", 0)] (by decide) ⟨"A", "function"⟩ ⟨"B", "function"⟩
    (by decide) (by decide) (by decide) rfl
